import Mathlib

/-!
Verification of the GPS track simplification engine of blablabike-backend
(src/utils/simplifier.py, class GPSSimplifier).

The development shallowly embeds the Python source into Lean:
machine floats become real numbers, numpy arrays become lists, and the
fallible numpy operations (column_stack on arrays of mismatched length)
return Option.  Every definition below mirrors one Python function of the
source; the functional recursion rdpRec is proof infrastructure relating
the iterative, stack-based loop of the source to a recursion on ranges.
-/

namespace GPS

open Real

/-- Planar point in meters: the rows of the Nx2 numpy arrays of the source. -/
def Point : Type := ℝ × ℝ

noncomputable section

/-- Constant EARTH_RADIUS_M of class GPSSimplifier. -/
def EARTH_RADIUS_M : ℝ := 6371000.0

/-- Translation of np.deg2rad. -/
def deg2rad (d : ℝ) : ℝ := d * (Real.pi / 180)

/-- Translation of np.mean over a one-dimensional array. -/
def npMean (l : List ℝ) : ℝ := l.sum / l.length

/-- Translation of np.linalg.norm for a 2-vector. -/
def npNorm (v : Point) : ℝ := Real.sqrt (v.1 * v.1 + v.2 * v.2)

/-- Index read points_xy[k]; every access performed by the source is in
bounds, so the default value is never produced on the traces we study. -/
def nth (l : List Point) (k : ℕ) : Point := l.getD k (0, 0)

/-- Maximum of a nonempty list of reals; on the empty list it is the
sentinel -1 that the source assigns to max_dist before the argmax search. -/
def npMax : List ℝ → ℝ
  | [] => -1
  | [x] => x
  | x :: y :: t => max x (npMax (y :: t))

/-- Translation of np.argmax on a one-dimensional array: index of the
first occurrence of the maximal entry. -/
def npArgmax : List ℝ → ℕ
  | [] => 0
  | [_] => 0
  | x :: y :: t => if x < npMax (y :: t) then 1 + npArgmax (y :: t) else 0

/-- Method _point_segment_distance_numpy of GPSSimplifier: distance from p
to the finite segment joining a and b, obtained by clamping the projection
parameter t to the interval from 0 to 1. -/
def point_segment_distance (p a b : Point) : ℝ :=
  let ab : Point := (b.1 - a.1, b.2 - a.2)
  let ap : Point := (p.1 - a.1, p.2 - a.2)
  let ab_len2 : ℝ := ab.1 * ab.1 + ab.2 * ab.2
  if ab_len2 = 0 then npNorm ap
  else
    let t : ℝ := (ap.1 * ab.1 + ap.2 * ab.2) / ab_len2
    let tc : ℝ := min (max t 0) 1
    let nearest : Point := (a.1 + tc * ab.1, a.2 + tc * ab.2)
    npNorm (p.1 - nearest.1, p.2 - nearest.2)

/-- Distances of the interior slice points_xy[i+1:j] to the segment from
points_xy[i] to points_xy[j], as built inside _rdp_indices_numpy. -/
def segment_distances (pts : List Point) (i j : ℕ) : List ℝ :=
  (((pts.drop (i + 1)).take (j - (i + 1))).map
    (fun p => point_segment_distance p (nth pts i) (nth pts j)))

lemma segment_distances_length_le (pts : List Point) (i j : ℕ) :
    (segment_distances pts i j).length ≤ j - (i + 1) := by
  simp [segment_distances]

lemma npArgmax_lt_length : ∀ (l : List ℝ), l ≠ [] → npArgmax l < l.length
  | [], h => absurd rfl h
  | [_], _ => by simp [npArgmax]
  | x :: y :: t, _ => by
    rw [npArgmax]
    split
    · have := npArgmax_lt_length (y :: t) (by simp)
      simpa [Nat.add_comm] using Nat.succ_lt_succ this
    · simp

/-- Weight of a pending index range on the work stack, used as the
termination measure of the iterative loop: each loop step strictly
decreases the total weight of the stack. -/
def rangeWeight (r : ℕ × ℕ) : ℕ := 2 * (r.2 - r.1 - 1) + 1

/-- Total weight of a work stack. -/
def stackWeight (st : List (ℕ × ℕ)) : ℕ := (st.map rangeWeight).sum

/-- Main loop of method _rdp_indices_numpy of GPSSimplifier.  The stack
holds the pending index ranges, with the head as the top (the source pops
the last element of a Python list and appends (i, max_idx) before
(max_idx, j)); keep is the boolean retention mask, modelled as the set of
indices marked True.  For every range reached from the initial stack the
interior slice is nonempty, so the branch on an empty distance list (in
which the source would compare its -1 sentinel to epsilon) is never taken
on the traces we study. -/
def rdpLoop (pts : List Point) (ε : ℝ) : List (ℕ × ℕ) → Finset ℕ → Finset ℕ
  | [], keep => keep
  | (i, j) :: rest, keep =>
    if j - i ≤ 1 then rdpLoop pts ε rest keep
    else
      let ds := segment_distances pts i j
      if hds : ds = [] then rdpLoop pts ε rest keep
      else
        let max_idx_rel := npArgmax ds
        let max_dist := ds.getD max_idx_rel (-1)
        let max_idx := i + 1 + max_idx_rel
        if max_dist > ε then
          rdpLoop pts ε ((max_idx, j) :: (i, max_idx) :: rest) (insert max_idx keep)
        else rdpLoop pts ε rest keep
  termination_by st _ => stackWeight st
  decreasing_by
  all_goals
    first
      | (have h1 : npArgmax (segment_distances pts i j) <
            (segment_distances pts i j).length := npArgmax_lt_length _ hds
         have h2 : (segment_distances pts i j).length ≤ j - (i + 1) :=
           segment_distances_length_le pts i j
         simp only [stackWeight, List.map_cons, List.sum_cons, rangeWeight]
         omega)
      | (simp only [stackWeight, List.map_cons, List.sum_cons, rangeWeight]
         omega)

/-- Range-recursive reformulation of the loop of _rdp_indices_numpy: the
set of interior indices that processing the single range (i, j) eventually
marks in the retention mask.  This definition is proof infrastructure; the
lemma rdpLoop_eq_rdpRec relates it to the stack-based loop of the source. -/
def rdpRec (pts : List Point) (ε : ℝ) (i j : ℕ) : Finset ℕ :=
  if j - i ≤ 1 then ∅
  else
    let ds := segment_distances pts i j
    if hds : ds = [] then ∅
    else
      let max_idx_rel := npArgmax ds
      let max_dist := ds.getD max_idx_rel (-1)
      let max_idx := i + 1 + max_idx_rel
      if max_dist > ε then
        {max_idx} ∪ rdpRec pts ε i max_idx ∪ rdpRec pts ε max_idx j
      else ∅
  termination_by j - i
  decreasing_by
  all_goals
    (have h1 : npArgmax (segment_distances pts i j) <
        (segment_distances pts i j).length := npArgmax_lt_length _ hds
     have h2 : (segment_distances pts i j).length ≤ j - (i + 1) :=
       segment_distances_length_le pts i j
     omega)

/-- Retention mask produced by _rdp_indices_numpy on at least three
points: both endpoints plus everything the loop marks. -/
def keepSet (pts : List Point) (ε : ℝ) : Finset ℕ :=
  {0, pts.length - 1} ∪ rdpRec pts ε 0 (pts.length - 1)

/-- Method _rdp_indices_numpy of GPSSimplifier: for at most two points all
indices are returned (np.arange), otherwise the endpoints are marked in
the retention mask, the work stack is seeded with the full range, and the
marked indices are returned in increasing order (np.nonzero). -/
def rdp_indices_numpy (pts : List Point) (ε : ℝ) : List ℕ :=
  let n := pts.length
  if n ≤ 2 then List.range n
  else (List.range n).filter (fun k => k ∈ rdpLoop pts ε [(0, n - 1)] {0, n - 1})

/-- Method rdp_indices of GPSSimplifier: empty input short-circuits to an
empty index array, otherwise _rdp_indices_numpy runs. -/
def rdp_indices (pts : List Point) (ε : ℝ) : List ℕ :=
  if pts.length = 0 then [] else rdp_indices_numpy pts ε

/-- Method latlon_to_xy of GPSSimplifier.  An empty latitude array returns
an empty point array before the longitudes are even considered; otherwise
the equirectangular projection centered on the mean latitude is applied
and np.column_stack pairs the two coordinate arrays, raising (modelled as
none) when their lengths differ. -/
def latlon_to_xy (lats lons : List ℝ) : Option (List Point) :=
  if lats.length = 0 then some []
  else
    let lat0_rad := deg2rad (npMean lats)
    let cos_lat0 := Real.cos lat0_rad
    let x := lons.map (fun lon => EARTH_RADIUS_M * deg2rad lon * cos_lat0)
    let y := lats.map (fun lat => EARTH_RADIUS_M * deg2rad lat)
    if x.length = y.length then some (x.zip y) else none

/-- Modelled from the spec, section 4.1: the Planar Projector contract on a
Track of geographic points, each a latitude-longitude pair in degrees.
This definition follows the words of the spec and is compared with
latlon_to_xy, the definition taken from the source. -/
def projectSpec (track : List (ℝ × ℝ)) : List Point :=
  let lat0 := npMean (track.map Prod.fst)
  let cos0 := Real.cos (deg2rad lat0)
  track.map (fun q => (EARTH_RADIUS_M * deg2rad q.2 * cos0, EARTH_RADIUS_M * deg2rad q.1))

/-- Method _simplify_arrays of GPSSimplifier: arrays of at most two
latitudes are returned unchanged (copies) with no validation of the
longitude array; otherwise the track is projected, reduced, and both
original arrays are filtered by the retained indices. -/
def simplify_arrays (lats lons : List ℝ) (ε : ℝ) : Option (List ℝ × List ℝ) :=
  if lats.length ≤ 2 then some (lats, lons)
  else
    match latlon_to_xy lats lons with
    | none => none
    | some pts =>
      let indices := rdp_indices pts ε
      some (indices.map (fun k => lats.getD k 0), indices.map (fun k => lons.getD k 0))

/-- Class GPSSimplifier: the only state is the default tolerance taken by
the constructor. -/
structure GPSSimplifier where
  epsilon_meters : ℝ

/-- Method simplify of GPSSimplifier on dual-array data: the explicit
epsilon argument overrides the stored default, then _simplify_arrays runs.
No validation of epsilon is performed. -/
def simplify (s : GPSSimplifier) (lats lons : List ℝ)
    (epsilon_meters : Option ℝ) : Option (List ℝ × List ℝ) :=
  let ε := epsilon_meters.getD s.epsilon_meters
  simplify_arrays lats lons ε

/-- Union of the contributions of all ranges still on the work stack
(proof infrastructure for relating the loop to the range recursion). -/
def unionRec (pts : List Point) (ε : ℝ) (st : List (ℕ × ℕ)) : Finset ℕ :=
  st.foldr (fun r acc => rdpRec pts ε r.1 r.2 ∪ acc) ∅

/-- Meters per degree of latitude in the projection: the Earth radius
times pi over 180.  Used to express concrete evaluation results. -/
def Kconst : ℝ := EARTH_RADIUS_M * (Real.pi / 180)

/-- Projected planar points of the counterexample track of claim C4
(latitudes 30, 0, 60, 90 and longitudes 0, 0, 50, 0) on the first
simplification pass, whose mean latitude is 45 degrees. -/
def ptsPass1 : List Point :=
  [((0:ℝ), 30*Kconst), ((0:ℝ), (0:ℝ)),
    (25*Real.sqrt 2*Kconst, 60*Kconst), ((0:ℝ), 90*Kconst)]

/-- Projected planar points of the reduced counterexample track
(latitudes 30, 60, 90 and longitudes 0, 50, 0) on the second pass, whose
mean latitude is 60 degrees. -/
def ptsPass2 : List Point :=
  [((0:ℝ), 30*Kconst), (25*Kconst, 60*Kconst), ((0:ℝ), 90*Kconst)]

/-- Sorted list of the indices retained by the reduction on at least three
points (proof infrastructure for the idempotence analysis). -/
def keptList (pts : List Point) (ε : ℝ) : List ℕ :=
  (List.range pts.length).filter (fun k => k ∈ keepSet pts ε)

/-- Subsequence of the points selected by the retained indices. -/
def keptPts (pts : List Point) (ε : ℝ) : List Point :=
  (keptList pts ε).map (nth pts)

/-- Original index sitting at position p of the retained-index list. -/
def keptIdx (pts : List Point) (ε : ℝ) (p : ℕ) : ℕ :=
  (keptList pts ε).getD p 0

/-! Lemmas about the argmax search. -/

lemma npMax_cons_cons (x y : ℝ) (t : List ℝ) :
    npMax (x :: y :: t) = max x (npMax (y :: t)) := by
  rw [npMax]

lemma npArgmax_cons_cons (x y : ℝ) (t : List ℝ) :
    npArgmax (x :: y :: t) =
      if x < npMax (y :: t) then 1 + npArgmax (y :: t) else 0 := by
  rw [npArgmax]

lemma le_npMax (l : List ℝ) : ∀ x ∈ l, x ≤ npMax l := by
  induction l using npMax.induct with
  | case1 => simp
  | case2 x => simp [npMax]
  | case3 x y t ih =>
    intro z hz
    rw [npMax_cons_cons]
    rcases List.mem_cons.1 hz with h | h
    · exact h ▸ le_max_left _ _
    · exact le_trans (ih z h) (le_max_right _ _)

lemma npMax_mem (l : List ℝ) (hl : l ≠ []) : npMax l ∈ l := by
  induction l using npMax.induct with
  | case1 => exact absurd rfl hl
  | case2 x => simp [npMax]
  | case3 x y t ih =>
    rw [npMax_cons_cons]
    rcases max_cases x (npMax (y :: t)) with ⟨h, _⟩ | ⟨h, _⟩
    · rw [h]; exact List.mem_cons_self _ _
    · rw [h]; exact List.mem_cons_of_mem _ (ih (by simp))

lemma getD_npArgmax (d : ℝ) (l : List ℝ) (hl : l ≠ []) :
    l.getD (npArgmax l) d = npMax l := by
  induction l using npMax.induct with
  | case1 => exact absurd rfl hl
  | case2 x => simp [npArgmax, npMax]
  | case3 x y t ih =>
    rw [npArgmax_cons_cons, npMax_cons_cons]
    by_cases h : x < npMax (y :: t)
    · rw [if_pos h, Nat.add_comm 1, List.getD_cons_succ, ih (by simp),
        max_eq_right (le_of_lt h)]
    · rw [if_neg h, List.getD_cons_zero, max_eq_left (not_lt.1 h)]

lemma getD_lt_npMax_of_lt_npArgmax (d : ℝ) (l : List ℝ) (k : ℕ)
    (hk : k < npArgmax l) : l.getD k d < npMax l := by
  induction l using npMax.induct generalizing k with
  | case1 => simp [npArgmax] at hk
  | case2 x => simp [npArgmax] at hk
  | case3 x y t ih =>
    rw [npArgmax_cons_cons] at hk
    by_cases hx : x < npMax (y :: t)
    · rw [if_pos hx] at hk
      rw [npMax_cons_cons]
      rcases k with _ | k
      · exact lt_max_of_lt_right (by simpa using hx)
      · rw [List.getD_cons_succ]
        exact lt_max_of_lt_right (ih k (by omega))
    · rw [if_neg hx] at hk
      omega

lemma npArgmax_eq (d : ℝ) (l : List ℝ) (r : ℕ) (hr : r < l.length)
    (hmax : ∀ s, s < l.length → l.getD s d ≤ l.getD r d)
    (hstrict : ∀ s, s < r → l.getD s d < l.getD r d) :
    npArgmax l = r := by
  induction l using npMax.induct generalizing r with
  | case1 => simp at hr
  | case2 x =>
    simp only [List.length_singleton, Nat.lt_one_iff] at hr
    rw [hr]
    simp [npArgmax]
  | case3 x y t ih =>
    rw [npArgmax_cons_cons]
    rcases r with _ | r
    · rw [if_neg]
      rw [not_lt]
      rcases List.mem_iff_getElem.1 (npMax_mem (y :: t) (by simp)) with ⟨s, hs, hse⟩
      have := hmax (s + 1) (by simpa using Nat.succ_lt_succ hs)
      rw [List.getD_cons_succ, List.getD_cons_zero] at this
      rwa [List.getD_eq_getElem _ _ hs, hse] at this
    · have hx : x < npMax (y :: t) := by
        have h0 := hstrict 0 (Nat.succ_pos r)
        rw [List.getD_cons_zero, List.getD_cons_succ] at h0
        have hmem : (y :: t).getD r d ∈ (y :: t) := by
          rw [List.getD_eq_getElem _ _ (by simpa using hr)]
          exact List.getElem_mem _
        exact lt_of_lt_of_le h0 (le_npMax _ _ hmem)
      rw [if_pos hx, Nat.add_comm 1]
      have := ih r (by simpa using hr)
        (fun s hs => by
          have := hmax (s + 1) (by simpa using Nat.succ_lt_succ hs)
          rwa [List.getD_cons_succ, List.getD_cons_succ] at this)
        (fun s hs => by
          have := hstrict (s + 1) (by omega)
          rwa [List.getD_cons_succ, List.getD_cons_succ] at this)
      omega

/-! Branch equations for the loop and for the range recursion. -/

lemma rdpLoop_nil (pts : List Point) (ε : ℝ) (keep : Finset ℕ) :
    rdpLoop pts ε [] keep = keep := by
  rw [rdpLoop]

lemma rdpLoop_cons_small (pts : List Point) (ε : ℝ) {i j : ℕ}
    (rest : List (ℕ × ℕ)) (keep : Finset ℕ) (h1 : j - i ≤ 1) :
    rdpLoop pts ε ((i, j) :: rest) keep = rdpLoop pts ε rest keep := by
  rw [rdpLoop]
  simp only [if_pos h1]

lemma rdpLoop_cons_nods (pts : List Point) (ε : ℝ) {i j : ℕ}
    (rest : List (ℕ × ℕ)) (keep : Finset ℕ) (h1 : ¬ j - i ≤ 1)
    (h2 : segment_distances pts i j = []) :
    rdpLoop pts ε ((i, j) :: rest) keep = rdpLoop pts ε rest keep := by
  rw [rdpLoop]
  simp only [if_neg h1, dif_pos h2]

lemma rdpLoop_cons_split (pts : List Point) (ε : ℝ) {i j : ℕ}
    (rest : List (ℕ × ℕ)) (keep : Finset ℕ) (h1 : ¬ j - i ≤ 1)
    (h2 : segment_distances pts i j ≠ [])
    (h3 : (segment_distances pts i j).getD (npArgmax (segment_distances pts i j)) (-1) > ε) :
    rdpLoop pts ε ((i, j) :: rest) keep =
      rdpLoop pts ε
        ((i + 1 + npArgmax (segment_distances pts i j), j) ::
          (i, i + 1 + npArgmax (segment_distances pts i j)) :: rest)
        (insert (i + 1 + npArgmax (segment_distances pts i j)) keep) := by
  rw [rdpLoop]
  simp only [if_neg h1, dif_neg h2, if_pos h3]

lemma rdpLoop_cons_nosplit (pts : List Point) (ε : ℝ) {i j : ℕ}
    (rest : List (ℕ × ℕ)) (keep : Finset ℕ) (h1 : ¬ j - i ≤ 1)
    (h2 : segment_distances pts i j ≠ [])
    (h3 : ¬ (segment_distances pts i j).getD (npArgmax (segment_distances pts i j)) (-1) > ε) :
    rdpLoop pts ε ((i, j) :: rest) keep = rdpLoop pts ε rest keep := by
  rw [rdpLoop]
  simp only [if_neg h1, dif_neg h2, if_neg h3]

lemma rdpRec_small (pts : List Point) (ε : ℝ) {i j : ℕ} (h1 : j - i ≤ 1) :
    rdpRec pts ε i j = ∅ := by
  rw [rdpRec]
  simp only [if_pos h1]

lemma rdpRec_nods (pts : List Point) (ε : ℝ) {i j : ℕ} (h1 : ¬ j - i ≤ 1)
    (h2 : segment_distances pts i j = []) :
    rdpRec pts ε i j = ∅ := by
  rw [rdpRec]
  simp only [if_neg h1, dif_pos h2]

lemma rdpRec_split (pts : List Point) (ε : ℝ) {i j : ℕ} (h1 : ¬ j - i ≤ 1)
    (h2 : segment_distances pts i j ≠ [])
    (h3 : (segment_distances pts i j).getD (npArgmax (segment_distances pts i j)) (-1) > ε) :
    rdpRec pts ε i j =
      {i + 1 + npArgmax (segment_distances pts i j)} ∪
        rdpRec pts ε i (i + 1 + npArgmax (segment_distances pts i j)) ∪
        rdpRec pts ε (i + 1 + npArgmax (segment_distances pts i j)) j := by
  rw [rdpRec]
  simp only [if_neg h1, dif_neg h2, if_pos h3]

lemma rdpRec_nosplit (pts : List Point) (ε : ℝ) {i j : ℕ} (h1 : ¬ j - i ≤ 1)
    (h2 : segment_distances pts i j ≠ [])
    (h3 : ¬ (segment_distances pts i j).getD (npArgmax (segment_distances pts i j)) (-1) > ε) :
    rdpRec pts ε i j = ∅ := by
  rw [rdpRec]
  simp only [if_neg h1, dif_neg h2, if_neg h3]

lemma split_idx_bounds (pts : List Point) {i j : ℕ} (h1 : ¬ j - i ≤ 1)
    (h2 : segment_distances pts i j ≠ []) :
    i < i + 1 + npArgmax (segment_distances pts i j) ∧
      i + 1 + npArgmax (segment_distances pts i j) < j := by
  have ha := npArgmax_lt_length _ h2
  have hb := segment_distances_length_le pts i j
  omega

lemma unionRec_nil (pts : List Point) (ε : ℝ) : unionRec pts ε [] = ∅ := rfl

lemma unionRec_cons (pts : List Point) (ε : ℝ) (r : ℕ × ℕ) (st : List (ℕ × ℕ)) :
    unionRec pts ε (r :: st) = rdpRec pts ε r.1 r.2 ∪ unionRec pts ε st := rfl

/-- Correspondence between the stack-based loop of the source and the
range recursion: the loop marks exactly the union of the contributions of
the stacked ranges. -/
lemma rdpLoop_eq_union (pts : List Point) (ε : ℝ) :
    ∀ (W : ℕ) (st : List (ℕ × ℕ)) (keep : Finset ℕ), stackWeight st ≤ W →
      rdpLoop pts ε st keep = keep ∪ unionRec pts ε st := by
  intro W
  induction W with
  | zero =>
    intro st keep hW
    cases st with
    | nil => simp [rdpLoop_nil, unionRec_nil]
    | cons r rest =>
      exfalso
      have : 1 ≤ rangeWeight r := by simp [rangeWeight]
      simp only [stackWeight, List.map_cons, List.sum_cons] at hW
      omega
  | succ W ih =>
    intro st keep hW
    cases st with
    | nil => simp [rdpLoop_nil, unionRec_nil]
    | cons r rest =>
      obtain ⟨i, j⟩ := r
      have hWr : stackWeight rest + rangeWeight (i, j) = stackWeight ((i, j) :: rest) := by
        simp [stackWeight, Nat.add_comm]
      have hrest : stackWeight rest ≤ W := by
        have : 1 ≤ rangeWeight (i, j) := by simp [rangeWeight]
        omega
      by_cases h1 : j - i ≤ 1
      · rw [rdpLoop_cons_small pts ε rest keep h1, ih rest keep hrest,
          unionRec_cons, rdpRec_small pts ε h1]
        simp
      · by_cases h2 : segment_distances pts i j = []
        · rw [rdpLoop_cons_nods pts ε rest keep h1 h2, ih rest keep hrest,
            unionRec_cons, rdpRec_nods pts ε h1 h2]
          simp
        · by_cases h3 : (segment_distances pts i j).getD
              (npArgmax (segment_distances pts i j)) (-1) > ε
          · obtain ⟨hml, hmr⟩ := split_idx_bounds pts h1 h2
            rw [rdpLoop_cons_split pts ε rest keep h1 h2 h3]
            rw [ih _ _ (by
              simp only [stackWeight, List.map_cons, List.sum_cons, rangeWeight] at hW ⊢
              omega)]
            rw [unionRec_cons, unionRec_cons, unionRec_cons,
              rdpRec_split pts ε h1 h2 h3]
            ext a
            simp only [Finset.mem_union, Finset.mem_insert, Finset.mem_singleton]
            tauto
          · rw [rdpLoop_cons_nosplit pts ε rest keep h1 h2 h3, ih rest keep hrest,
              unionRec_cons, rdpRec_nosplit pts ε h1 h2 h3]
            simp

lemma rdpLoop_eq_rdpRec (pts : List Point) (ε : ℝ) (i j : ℕ) (keep : Finset ℕ) :
    rdpLoop pts ε [(i, j)] keep = keep ∪ rdpRec pts ε i j := by
  rw [rdpLoop_eq_union pts ε (stackWeight [(i, j)]) [(i, j)] keep le_rfl,
    unionRec_cons, unionRec_nil]
  simp

/-! Structural properties of the range recursion. -/

lemma rdpRec_subset_Ioo_aux (pts : List Point) (ε : ℝ) :
    ∀ (N i j : ℕ), j - i ≤ N → rdpRec pts ε i j ⊆ Finset.Ioo i j := by
  intro N
  induction N with
  | zero =>
    intro i j h
    rw [rdpRec_small pts ε (by omega)]
    simp
  | succ N ih =>
    intro i j h
    by_cases h1 : j - i ≤ 1
    · rw [rdpRec_small pts ε h1]; simp
    · by_cases h2 : segment_distances pts i j = []
      · rw [rdpRec_nods pts ε h1 h2]; simp
      · by_cases h3 : (segment_distances pts i j).getD
            (npArgmax (segment_distances pts i j)) (-1) > ε
        · obtain ⟨hml, hmr⟩ := split_idx_bounds pts h1 h2
          rw [rdpRec_split pts ε h1 h2 h3]
          intro k hk
          simp only [Finset.mem_union, Finset.mem_singleton] at hk
          rcases hk with (hk | hk) | hk
          · subst hk; exact Finset.mem_Ioo.2 ⟨hml, hmr⟩
          · have := ih i _ (by omega) hk
            rw [Finset.mem_Ioo] at this ⊢
            omega
          · have := ih _ j (by omega) hk
            rw [Finset.mem_Ioo] at this ⊢
            omega
        · rw [rdpRec_nosplit pts ε h1 h2 h3]; simp

lemma rdpRec_subset_Ioo (pts : List Point) (ε : ℝ) (i j : ℕ) :
    rdpRec pts ε i j ⊆ Finset.Ioo i j :=
  rdpRec_subset_Ioo_aux pts ε (j - i) i j le_rfl

/-- Monotonicity core: a larger tolerance marks a subset of the indices
marked by a smaller tolerance, range by range. -/
lemma rdpRec_anti_aux (pts : List Point) {ε₁ ε₂ : ℝ} (hε : ε₁ ≤ ε₂) :
    ∀ (N i j : ℕ), j - i ≤ N → rdpRec pts ε₂ i j ⊆ rdpRec pts ε₁ i j := by
  intro N
  induction N with
  | zero =>
    intro i j h
    rw [rdpRec_small pts ε₂ (by omega)]
    simp
  | succ N ih =>
    intro i j h
    by_cases h1 : j - i ≤ 1
    · rw [rdpRec_small pts ε₂ h1]; simp
    · by_cases h2 : segment_distances pts i j = []
      · rw [rdpRec_nods pts ε₂ h1 h2]; simp
      · by_cases h3 : (segment_distances pts i j).getD
            (npArgmax (segment_distances pts i j)) (-1) > ε₂
        · obtain ⟨hml, hmr⟩ := split_idx_bounds pts h1 h2
          have h3' : (segment_distances pts i j).getD
              (npArgmax (segment_distances pts i j)) (-1) > ε₁ := lt_of_le_of_lt hε h3
          rw [rdpRec_split pts ε₂ h1 h2 h3, rdpRec_split pts ε₁ h1 h2 h3']
          refine Finset.union_subset (Finset.union_subset ?_ ?_) ?_
          · exact Finset.subset_union_left.trans Finset.subset_union_left
          · exact (ih i _ (by omega)).trans
              (Finset.subset_union_right.trans Finset.subset_union_left
                |>.trans subset_rfl)
          · exact (ih _ j (by omega)).trans Finset.subset_union_right
        · rw [rdpRec_nosplit pts ε₂ h1 h2 h3]; simp

lemma point_segment_distance_nonneg (p a b : Point) :
    0 ≤ point_segment_distance p a b := by
  rw [point_segment_distance]
  dsimp only
  split
  · exact Real.sqrt_nonneg _
  · exact Real.sqrt_nonneg _

lemma segment_distances_nonneg (pts : List Point) (i j : ℕ) :
    ∀ d ∈ segment_distances pts i j, 0 ≤ d := by
  intro d hd
  rw [segment_distances, List.mem_map] at hd
  obtain ⟨p, _, hp⟩ := hd
  exact hp ▸ point_segment_distance_nonneg p _ _

lemma segment_distances_length (pts : List Point) (i j : ℕ) (hj : j < pts.length) :
    (segment_distances pts i j).length = j - (i + 1) := by
  simp only [segment_distances, List.length_map, List.length_take, List.length_drop]
  omega

/-- With a negative tolerance every range splits all the way down, so
every interior index is marked. -/
lemma rdpRec_neg_aux (pts : List Point) {ε : ℝ} (hε : ε < 0) :
    ∀ (N i j : ℕ), j - i ≤ N → j < pts.length → rdpRec pts ε i j = Finset.Ioo i j := by
  intro N
  induction N with
  | zero =>
    intro i j h hj
    rw [rdpRec_small pts ε (by omega)]
    ext k
    simp only [Finset.not_mem_empty, false_iff, Finset.mem_Ioo]
    omega
  | succ N ih =>
    intro i j h hj
    by_cases h1 : j - i ≤ 1
    · rw [rdpRec_small pts ε h1]
      ext k
      simp only [Finset.not_mem_empty, false_iff, Finset.mem_Ioo]
      omega
    · have h2 : segment_distances pts i j ≠ [] := by
        have := segment_distances_length pts i j hj
        intro hc
        rw [hc] at this
        simp at this
        omega
      have h3 : (segment_distances pts i j).getD
          (npArgmax (segment_distances pts i j)) (-1) > ε := by
        rw [getD_npArgmax _ _ h2]
        have hmem := npMax_mem _ h2
        have := segment_distances_nonneg pts i j _ hmem
        linarith
      obtain ⟨hml, hmr⟩ := split_idx_bounds pts h1 h2
      rw [rdpRec_split pts ε h1 h2 h3, ih i _ (by omega) (by omega),
        ih _ j (by omega) hj]
      ext k
      simp only [Finset.mem_union, Finset.mem_singleton, Finset.mem_Ioo]
      omega

/-! Characterizations of rdp_indices. -/

lemma rdp_indices_small (pts : List Point) (ε : ℝ) (h : pts.length ≤ 2) :
    rdp_indices pts ε = List.range pts.length := by
  rw [rdp_indices, rdp_indices_numpy]
  by_cases h0 : pts.length = 0
  · simp [h0]
  · simp [h0, h]

lemma rdp_indices_eq_filter (pts : List Point) (ε : ℝ) (h : 2 < pts.length) :
    rdp_indices pts ε =
      (List.range pts.length).filter (fun k => k ∈ keepSet pts ε) := by
  rw [rdp_indices, if_neg (by omega), rdp_indices_numpy]
  rw [if_neg (by omega)]
  have : rdpLoop pts ε [(0, pts.length - 1)] {0, pts.length - 1} = keepSet pts ε := by
    rw [rdpLoop_eq_rdpRec, keepSet]
  rw [this]

lemma zero_mem_keepSet (pts : List Point) (ε : ℝ) : 0 ∈ keepSet pts ε := by
  rw [keepSet]
  simp

lemma last_mem_keepSet (pts : List Point) (ε : ℝ) :
    pts.length - 1 ∈ keepSet pts ε := by
  rw [keepSet]
  simp

lemma keepSet_lt_length (pts : List Point) (ε : ℝ) (h : 2 < pts.length) :
    ∀ k ∈ keepSet pts ε, k < pts.length := by
  intro k hk
  rw [keepSet] at hk
  simp only [Finset.mem_union, Finset.mem_insert, Finset.mem_singleton] at hk
  rcases hk with (hk | hk) | hk
  · omega
  · omega
  · have := rdpRec_subset_Ioo pts ε 0 (pts.length - 1) hk
    rw [Finset.mem_Ioo] at this
    omega

/-- Negative tolerances keep every index: every maximal interior distance
is a nonnegative real and therefore exceeds the tolerance. -/
lemma rdp_indices_neg (pts : List Point) (ε : ℝ) (hε : ε < 0) :
    rdp_indices pts ε = List.range pts.length := by
  by_cases hn : pts.length ≤ 2
  · exact rdp_indices_small pts ε hn
  · rw [rdp_indices_eq_filter pts ε (by omega)]
    rw [List.filter_eq_self]
    intro k hk
    rw [List.mem_range] at hk
    simp only [decide_eq_true_eq]
    rw [keepSet,
      rdpRec_neg_aux pts hε (pts.length - 1) 0 (pts.length - 1) le_rfl (by omega)]
    simp only [Finset.mem_union, Finset.mem_insert, Finset.mem_singleton, Finset.mem_Ioo]
    omega

/-- C1: for every sequence of planar points and every epsilon, the index
list returned by rdp_indices is strictly increasing with every element
drawn from the valid index range, and when the sequence is nonempty both
index 0 and the last index belong to it, regardless of epsilon. -/
theorem C1_rdp_indices_sorted_and_endpoints (pts : List Point) (ε : ℝ) :
    (rdp_indices pts ε).Sorted (· < ·) ∧
      (∀ k ∈ rdp_indices pts ε, k < pts.length) ∧
      (1 ≤ pts.length →
        0 ∈ rdp_indices pts ε ∧ pts.length - 1 ∈ rdp_indices pts ε) := by
  by_cases hn : pts.length ≤ 2
  · rw [rdp_indices_small pts ε hn]
    refine ⟨List.sorted_lt_range _, fun k hk => List.mem_range.1 hk, fun h1 => ?_⟩
    constructor
    · rw [List.mem_range]; omega
    · rw [List.mem_range]; omega
  · rw [rdp_indices_eq_filter pts ε (by omega)]
    refine ⟨List.Pairwise.filter _ (List.sorted_lt_range _), ?_, ?_⟩
    · intro k hk
      rw [List.mem_filter, List.mem_range] at hk
      exact hk.1
    · intro _
      constructor
      · rw [List.mem_filter, List.mem_range]
        exact ⟨by omega, by simp [zero_mem_keepSet]⟩
      · rw [List.mem_filter, List.mem_range]
        exact ⟨by omega, by simp [last_mem_keepSet]⟩

/-- Witness for C1 at a concrete two-point input. -/
theorem C1_rdp_indices_sorted_and_endpoints_witness :
    1 ≤ ([((0:ℝ), (0:ℝ)), ((1:ℝ), (0:ℝ))] : List Point).length ∧
      (0 ∈ rdp_indices ([((0:ℝ), (0:ℝ)), ((1:ℝ), (0:ℝ))] : List Point) 5 ∧
        ([((0:ℝ), (0:ℝ)), ((1:ℝ), (0:ℝ))] : List Point).length - 1 ∈
          rdp_indices ([((0:ℝ), (0:ℝ)), ((1:ℝ), (0:ℝ))] : List Point) 5) :=
  ⟨by simp,
    (C1_rdp_indices_sorted_and_endpoints
      ([((0:ℝ), (0:ℝ)), ((1:ℝ), (0:ℝ))] : List Point) 5).2.2 (by simp)⟩

/-- C3: enlarging the tolerance can only shrink the number of retained
indices, on every planar point sequence. -/
theorem C3_monotonic_reduction (pts : List Point) (ε₁ ε₂ : ℝ) (h : ε₁ < ε₂) :
    (rdp_indices pts ε₂).length ≤ (rdp_indices pts ε₁).length := by
  by_cases hn : pts.length ≤ 2
  · rw [rdp_indices_small pts ε₁ hn, rdp_indices_small pts ε₂ hn]
  · rw [rdp_indices_eq_filter pts ε₁ (by omega),
      rdp_indices_eq_filter pts ε₂ (by omega)]
    rw [← List.countP_eq_length_filter, ← List.countP_eq_length_filter]
    refine List.countP_mono_left ?_
    intro k _ hk
    simp only [decide_eq_true_eq] at hk ⊢
    rw [keepSet] at hk ⊢
    rcases Finset.mem_union.1 hk with hk | hk
    · exact Finset.mem_union_left _ hk
    · exact Finset.mem_union_right _
        (rdpRec_anti_aux pts (le_of_lt h) _ 0 (pts.length - 1) le_rfl hk)

/-- Witness for C3 at a concrete input and tolerance pair. -/
theorem C3_monotonic_reduction_witness :
    (0 : ℝ) < 1 ∧
      (rdp_indices ([((0:ℝ), (0:ℝ)), ((1:ℝ), (1:ℝ)), ((2:ℝ), (0:ℝ))] : List Point) 1).length ≤
        (rdp_indices ([((0:ℝ), (0:ℝ)), ((1:ℝ), (1:ℝ)), ((2:ℝ), (0:ℝ))] : List Point) 0).length :=
  ⟨zero_lt_one,
    C3_monotonic_reduction ([((0:ℝ), (0:ℝ)), ((1:ℝ), (1:ℝ)), ((2:ℝ), (0:ℝ))] : List Point)
      0 1 zero_lt_one⟩

/-- C7: with at most two points, rdp_indices returns all indices unchanged
for every epsilon; in particular zero points yield the empty index list,
one point yields the single index 0, and two points yield 0 and 1. -/
theorem C7_base_cases (pts : List Point) (ε : ℝ) (h : pts.length ≤ 2) :
    rdp_indices pts ε = List.range pts.length :=
  rdp_indices_small pts ε h

/-- Witness for C7 at concrete inputs of lengths 0, 1 and 2. -/
theorem C7_base_cases_witness :
    rdp_indices ([] : List Point) 3 = [] ∧
      rdp_indices ([((4:ℝ), (5:ℝ))] : List Point) 3 = [0] ∧
      rdp_indices ([((4:ℝ), (5:ℝ)), ((6:ℝ), (7:ℝ))] : List Point) 3 = [0, 1] :=
  ⟨(C7_base_cases ([] : List Point) 3 (by simp)).trans rfl,
    (C7_base_cases ([((4:ℝ), (5:ℝ))] : List Point) 3 (by simp)).trans rfl,
    (C7_base_cases ([((4:ℝ), (5:ℝ)), ((6:ℝ), (7:ℝ))] : List Point) 3 (by simp)).trans rfl⟩

/-- C10: a strictly negative epsilon produces no error and returns the
full index range, because every interior maximum distance is nonnegative
and therefore exceeds the tolerance. -/
theorem C10_negative_epsilon_keeps_all (pts : List Point) (ε : ℝ) (hε : ε < 0) :
    rdp_indices pts ε = List.range pts.length :=
  rdp_indices_neg pts ε hε

/-- Witness for C10 at a concrete three-point input with epsilon -1. -/
theorem C10_negative_epsilon_keeps_all_witness :
    (-1 : ℝ) < 0 ∧
      rdp_indices ([((0:ℝ), (0:ℝ)), ((3:ℝ), (4:ℝ)), ((1:ℝ), (1:ℝ))] : List Point) (-1) =
        List.range 3 :=
  ⟨neg_lt_zero.mpr one_pos,
    C10_negative_epsilon_keeps_all
      ([((0:ℝ), (0:ℝ)), ((3:ℝ), (4:ℝ)), ((1:ℝ), (1:ℝ))] : List Point) (-1)
      (neg_lt_zero.mpr one_pos)⟩

/-- C2: contrary to the claim, a negative epsilon is not rejected: the
source performs no validation of epsilon, and rdp_indices computes and
returns the full index set on a concrete three-point input with epsilon
equal to -1. -/
theorem C2_negative_epsilon_not_rejected :
    rdp_indices ([((0:ℝ), (0:ℝ)), ((1:ℝ), (0:ℝ)), ((2:ℝ), (0:ℝ))] : List Point) (-1) =
      [0, 1, 2] := by
  rw [rdp_indices_neg _ _ (neg_lt_zero.mpr one_pos)]
  rfl

/-- C8: contrary to the claim, dual-array input with mismatched lengths is
not always rejected: with two latitudes and three longitudes, simplify
returns both arrays unchanged instead of failing, because _simplify_arrays
short-circuits on at most two latitudes before any length check. -/
theorem C8_mismatched_lengths_not_rejected :
    simplify ⟨10⟩ [(0:ℝ), 0] [(0:ℝ), 0, 0] none = some ([(0:ℝ), 0], [(0:ℝ), 0, 0]) := by
  rw [simplify, simplify_arrays]
  simp

lemma zip_map_cross (f g : ℝ → ℝ) :
    ∀ (as bs : List ℝ),
      (bs.map f).zip (as.map g) = (as.zip bs).map (fun q => (f q.2, g q.1))
  | [], _ => by simp
  | _ :: _, [] => by simp
  | a :: as, b :: bs => by
    simp only [List.map_cons, List.zip_cons_cons]
    rw [zip_map_cross f g as bs]

/-- C5: the planar projector of the source refines the spec formula: on a
track given as equally long latitude and longitude arrays it returns,
without error, exactly one planar point per input point in order, with
x = R * radians(longitude) * cos(radians(mean latitude)) and
y = R * radians(latitude); the empty track yields the empty sequence. -/
theorem C5_projector_refinement (lats lons : List ℝ) (h : lats.length = lons.length) :
    latlon_to_xy lats lons = some (projectSpec (lats.zip lons)) ∧
      (projectSpec (lats.zip lons)).length = lats.length := by
  constructor
  · rw [latlon_to_xy]
    by_cases h0 : lats.length = 0
    · rw [if_pos h0]
      have hnil : lats = [] := List.length_eq_zero.1 h0
      subst hnil
      simp [projectSpec]
    · rw [if_neg h0, if_pos (by simp [h])]
      congr 1
      rw [projectSpec]
      have hfst : (lats.zip lons).map Prod.fst = lats :=
        List.map_fst_zip lats lons (le_of_eq h)
      rw [hfst]
      exact zip_map_cross _ _ lats lons
  · rw [projectSpec]
    simp [List.length_zip, h]

/-- Witness for C5 at a concrete one-point track. -/
theorem C5_projector_refinement_witness :
    ([(10:ℝ)] : List ℝ).length = ([(20:ℝ)] : List ℝ).length ∧
      latlon_to_xy [(10:ℝ)] [(20:ℝ)] =
        some (projectSpec (([(10:ℝ)] : List ℝ).zip [(20:ℝ)])) :=
  ⟨rfl, (C5_projector_refinement [(10:ℝ)] [(20:ℝ)] rfl).1⟩

set_option maxHeartbeats 1000000 in
/-- C6: the reducer distance is point-to-finite-segment distance: the
clamped projection yields a point of the segment whose distance to p is a
lower bound of the distance from p to any point of the segment, and a
degenerate segment with coincident endpoints yields the plain Euclidean
distance from p to that single point. -/
theorem C6_point_segment_distance_clamped (p a b : Point) (t : ℝ)
    (h0 : 0 ≤ t) (h1 : t ≤ 1) :
    point_segment_distance p a b ≤
        npNorm (p.1 - (a.1 + t * (b.1 - a.1)), p.2 - (a.2 + t * (b.2 - a.2))) ∧
      (a = b → point_segment_distance p a b = npNorm (p.1 - a.1, p.2 - a.2)) := by
  constructor
  · rw [point_segment_distance]
    by_cases hz : (b.1 - a.1) * (b.1 - a.1) + (b.2 - a.2) * (b.2 - a.2) = 0
    · rw [if_pos hz]
      have hb1 : b.1 - a.1 = 0 := by nlinarith [sq_nonneg (b.1 - a.1), sq_nonneg (b.2 - a.2)]
      have hb2 : b.2 - a.2 = 0 := by nlinarith [sq_nonneg (b.1 - a.1), sq_nonneg (b.2 - a.2)]
      have e1 : p.1 - (a.1 + t * (b.1 - a.1)) = p.1 - a.1 := by rw [hb1]; ring
      have e2 : p.2 - (a.2 + t * (b.2 - a.2)) = p.2 - a.2 := by rw [hb2]; ring
      rw [e1, e2]
    · rw [if_neg hz]
      rw [npNorm, npNorm]
      apply Real.sqrt_le_sqrt
      dsimp only
      set A1 := b.1 - a.1 with hA1
      set A2 := b.2 - a.2 with hA2
      set P1 := p.1 - a.1 with hP1
      set P2 := p.2 - a.2 with hP2
      have hL : 0 < A1 * A1 + A2 * A2 :=
        lt_of_le_of_ne (by nlinarith [sq_nonneg A1, sq_nonneg A2]) (Ne.symm hz)
      set q := (P1 * A1 + P2 * A2) / (A1 * A1 + A2 * A2) with hqdef
      have hq : q * (A1 * A1 + A2 * A2) = P1 * A1 + P2 * A2 := by
        rw [hqdef]
        field_simp
      have e1 : p.1 - (a.1 + min (max q 0) 1 * A1) = P1 - min (max q 0) 1 * A1 := by
        rw [hP1]; ring
      have e2 : p.2 - (a.2 + min (max q 0) 1 * A2) = P2 - min (max q 0) 1 * A2 := by
        rw [hP2]; ring
      have e3 : p.1 - (a.1 + t * A1) = P1 - t * A1 := by rw [hP1]; ring
      have e4 : p.2 - (a.2 + t * A2) = P2 - t * A2 := by rw [hP2]; ring
      rw [e1, e2, e3, e4]
      have hqt : t * (q * (A1 * A1 + A2 * A2)) = t * (P1 * A1 + P2 * A2) := by
        rw [hq]
      have hqq : q * (q * (A1 * A1 + A2 * A2)) = q * (P1 * A1 + P2 * A2) := by
        rw [hq]
      rcases le_or_lt q 0 with hq0 | hq0
      · have htc : min (max q 0) 1 = 0 := by
          rw [max_eq_right hq0]
          exact min_eq_left zero_le_one
        rw [htc]
        have key : 0 ≤ t * (t - 2 * q) * (A1 * A1 + A2 * A2) :=
          mul_nonneg (mul_nonneg h0 (by linarith)) hL.le
        nlinarith [key, hq, hqt]
      · rcases le_or_lt 1 q with hq1 | hq1
        · have htc : min (max q 0) 1 = 1 := by
            rw [max_eq_left (le_trans zero_le_one hq1)]
            exact min_eq_right hq1
          rw [htc]
          have key : 0 ≤ (1 - t) * (2 * q - 1 - t) * (A1 * A1 + A2 * A2) :=
            mul_nonneg (mul_nonneg (by linarith) (by linarith)) hL.le
          nlinarith [key, hq, hqt]
        · have htc : min (max q 0) 1 = q := by
            rw [max_eq_left hq0.le]
            exact min_eq_left hq1.le
          rw [htc]
          have key : 0 ≤ (A1 * A1 + A2 * A2) * ((t - q) * (t - q)) :=
            mul_nonneg hL.le (mul_self_nonneg _)
          nlinarith [key, hq, hqt, hqq]
  · intro hab
    subst hab
    rw [point_segment_distance]
    rw [if_pos (by ring)]

/-! Evaluation helpers used to run the embedded code on concrete inputs. -/

lemma npNorm_eq (x y r : ℝ) (hr : 0 ≤ r) (h : x * x + y * y = r * r) :
    npNorm (x, y) = r := by
  rw [npNorm]
  dsimp only
  rw [h, Real.sqrt_mul_self hr]

lemma point_segment_distance_eq_of_ne (p a b : Point)
    (hz : (b.1 - a.1) * (b.1 - a.1) + (b.2 - a.2) * (b.2 - a.2) ≠ 0) :
    point_segment_distance p a b =
      npNorm
        (p.1 - (a.1 +
          min (max (((p.1 - a.1) * (b.1 - a.1) + (p.2 - a.2) * (b.2 - a.2)) /
            ((b.1 - a.1) * (b.1 - a.1) + (b.2 - a.2) * (b.2 - a.2))) 0) 1 * (b.1 - a.1)),
         p.2 - (a.2 +
          min (max (((p.1 - a.1) * (b.1 - a.1) + (p.2 - a.2) * (b.2 - a.2)) /
            ((b.1 - a.1) * (b.1 - a.1) + (b.2 - a.2) * (b.2 - a.2))) 0) 1 * (b.2 - a.2))) := by
  simp only [point_segment_distance]
  rw [if_neg hz]

/-- Closed-form evaluation of the point-to-segment distance: supply the
unclamped parameter value tv and the resulting distance r. -/
lemma psd_formula (p a b : Point) (tv r : ℝ)
    (hz : (b.1 - a.1) * (b.1 - a.1) + (b.2 - a.2) * (b.2 - a.2) ≠ 0)
    (ht : (p.1 - a.1) * (b.1 - a.1) + (p.2 - a.2) * (b.2 - a.2) =
      tv * ((b.1 - a.1) * (b.1 - a.1) + (b.2 - a.2) * (b.2 - a.2)))
    (hr : 0 ≤ r)
    (hd : (p.1 - (a.1 + min (max tv 0) 1 * (b.1 - a.1))) *
            (p.1 - (a.1 + min (max tv 0) 1 * (b.1 - a.1))) +
          (p.2 - (a.2 + min (max tv 0) 1 * (b.2 - a.2))) *
            (p.2 - (a.2 + min (max tv 0) 1 * (b.2 - a.2))) = r * r) :
    point_segment_distance p a b = r := by
  have htv : ((p.1 - a.1) * (b.1 - a.1) + (p.2 - a.2) * (b.2 - a.2)) /
      ((b.1 - a.1) * (b.1 - a.1) + (b.2 - a.2) * (b.2 - a.2)) = tv := by
    rw [ht]
    field_simp
  rw [point_segment_distance_eq_of_ne p a b hz, htv]
  exact npNorm_eq _ _ r hr hd

lemma dist_origin_vert (K : ℝ) (hK : 0 < K) :
    point_segment_distance (((0:ℝ), (0:ℝ)) : Point) (((0:ℝ), 30*K) : Point)
      (((0:ℝ), 90*K) : Point) = 30*K := by
  refine psd_formula _ _ _ (-(1/2)) (30*K) ?_ ?_ ?_ ?_
  · dsimp only
    exact ne_of_gt (by nlinarith [mul_pos hK hK])
  · dsimp only
    ring
  · positivity
  · dsimp only
    norm_num

lemma dist_wide_vert (K : ℝ) (hK : 0 < K) :
    point_segment_distance ((25*Real.sqrt 2*K, 60*K) : Point) (((0:ℝ), 30*K) : Point)
      (((0:ℝ), 90*K) : Point) = 25*Real.sqrt 2*K := by
  refine psd_formula _ _ _ (1/2) (25*Real.sqrt 2*K) ?_ ?_ ?_ ?_
  · dsimp only
    exact ne_of_gt (by nlinarith [mul_pos hK hK])
  · dsimp only
    ring
  · positivity
  · dsimp only
    norm_num
    ring

lemma dist_origin_slant (K : ℝ) (hK : 0 < K) :
    point_segment_distance (((0:ℝ), (0:ℝ)) : Point) (((0:ℝ), 30*K) : Point)
      ((25*Real.sqrt 2*K, 60*K) : Point) = 30*K := by
  have h2 : Real.sqrt 2 * Real.sqrt 2 = 2 := Real.mul_self_sqrt (by norm_num)
  have hKK : 0 < K * K := mul_pos hK hK
  refine psd_formula _ _ _ (-(18/43)) (30*K) ?_ ?_ ?_ ?_
  · dsimp only
    exact ne_of_gt (by nlinarith [h2, hKK])
  · dsimp only
    linear_combination ((18/43) * 625 * (K * K)) * h2
  · positivity
  · dsimp only
    norm_num

lemma dist_mid_vert (K : ℝ) (hK : 0 < K) :
    point_segment_distance ((25*K, 60*K) : Point) (((0:ℝ), 30*K) : Point)
      (((0:ℝ), 90*K) : Point) = 25*K := by
  refine psd_formula _ _ _ (1/2) (25*K) ?_ ?_ ?_ ?_
  · dsimp only
    exact ne_of_gt (by nlinarith [mul_pos hK hK])
  · dsimp only
    ring
  · positivity
  · dsimp only
    norm_num
    ring

lemma Kconst_pos : 0 < Kconst := by
  rw [Kconst, EARTH_RADIUS_M]
  positivity

lemma proj_run1 :
    latlon_to_xy [(30:ℝ), 0, 60, 90] [(0:ℝ), 0, 50, 0] = some ptsPass1 := by
  rw [ptsPass1]
  have hmean : npMean [(30:ℝ), 0, 60, 90] = 45 := by
    rw [npMean]
    norm_num
  have hcos : Real.cos (deg2rad (45:ℝ)) = Real.sqrt 2 / 2 := by
    rw [deg2rad]
    have h : (45:ℝ) * (Real.pi / 180) = Real.pi / 4 := by ring
    rw [h, Real.cos_pi_div_four]
  simp only [latlon_to_xy, List.length_cons, List.length_nil, List.length_map,
    hmean, hcos, List.map_cons, List.map_nil, List.zip_cons_cons, List.zip_nil_right]
  norm_num [deg2rad, Kconst]
  repeat' constructor
  all_goals first | trivial | ring

lemma proj_run2 :
    latlon_to_xy [(30:ℝ), 60, 90] [(0:ℝ), 50, 0] = some ptsPass2 := by
  rw [ptsPass2]
  have hmean : npMean [(30:ℝ), 60, 90] = 60 := by
    rw [npMean]
    norm_num
  have hcos : Real.cos (deg2rad (60:ℝ)) = 1 / 2 := by
    rw [deg2rad]
    have h : (60:ℝ) * (Real.pi / 180) = Real.pi / 3 := by ring
    rw [h, Real.cos_pi_div_three]
  simp only [latlon_to_xy, List.length_cons, List.length_nil, List.length_map,
    hmean, hcos, List.map_cons, List.map_nil, List.zip_cons_cons, List.zip_nil_right]
  norm_num [deg2rad, Kconst]
  repeat' constructor
  all_goals first | trivial | ring

lemma sqrt_two_gt : (31/25 : ℝ) < Real.sqrt 2 := by
  nlinarith [Real.sq_sqrt (show (0:ℝ) ≤ 2 by norm_num), Real.sqrt_nonneg 2]

lemma seg_pass1_03 :
    segment_distances ptsPass1 0 3 = [30*Kconst, 25*Real.sqrt 2*Kconst] := by
  rw [ptsPass1, segment_distances]
  norm_num [nth]
  exact ⟨dist_origin_vert Kconst Kconst_pos, dist_wide_vert Kconst Kconst_pos⟩

lemma seg_pass1_02 :
    segment_distances ptsPass1 0 2 = [30*Kconst] := by
  rw [ptsPass1, segment_distances]
  norm_num [nth]
  exact dist_origin_slant Kconst Kconst_pos

lemma seg_pass2_02 :
    segment_distances ptsPass2 0 2 = [25*Kconst] := by
  rw [ptsPass2, segment_distances]
  norm_num [nth]
  exact dist_mid_vert Kconst Kconst_pos

lemma rdpRec_pass1 : rdpRec ptsPass1 (31*Kconst) 0 3 = {2} := by
  have hK := Kconst_pos
  have hs := sqrt_two_gt
  have h1 : ¬((3:ℕ) - 0 ≤ 1) := by omega
  have h2 : segment_distances ptsPass1 0 3 ≠ [] := by
    rw [seg_pass1_03]
    simp
  have harg : npArgmax [30*Kconst, 25*Real.sqrt 2*Kconst] = 1 := by
    have hlt : 30*Kconst < 25*Real.sqrt 2*Kconst := by nlinarith
    simp [npArgmax, npMax, hlt]
  have h3 : (segment_distances ptsPass1 0 3).getD
      (npArgmax (segment_distances ptsPass1 0 3)) (-1) > 31*Kconst := by
    rw [seg_pass1_03, harg]
    have hget : ([30*Kconst, 25*Real.sqrt 2*Kconst] : List ℝ).getD 1 (-1) =
        25*Real.sqrt 2*Kconst := by simp
    rw [hget]
    nlinarith
  rw [rdpRec_split ptsPass1 (31*Kconst) h1 h2 h3]
  rw [seg_pass1_03, harg]
  norm_num
  have h1' : ¬((2:ℕ) - 0 ≤ 1) := by omega
  have h2' : segment_distances ptsPass1 0 2 ≠ [] := by
    rw [seg_pass1_02]
    simp
  have h3' : ¬((segment_distances ptsPass1 0 2).getD
      (npArgmax (segment_distances ptsPass1 0 2)) (-1) > 31*Kconst) := by
    rw [seg_pass1_02]
    have harg' : npArgmax [30*Kconst] = 0 := by simp [npArgmax]
    rw [harg']
    have hget : ([30*Kconst] : List ℝ).getD 0 (-1) = 30*Kconst := by simp
    rw [hget]
    push_neg
    nlinarith
  rw [rdpRec_nosplit ptsPass1 (31*Kconst) h1' h2' h3',
    rdpRec_small ptsPass1 (31*Kconst) (show (3:ℕ) - 2 ≤ 1 by omega)]
  simp

lemma rdpRec_pass2 : rdpRec ptsPass2 (31*Kconst) 0 2 = ∅ := by
  have hK := Kconst_pos
  have h1 : ¬((2:ℕ) - 0 ≤ 1) := by omega
  have h2 : segment_distances ptsPass2 0 2 ≠ [] := by
    rw [seg_pass2_02]
    simp
  have h3 : ¬((segment_distances ptsPass2 0 2).getD
      (npArgmax (segment_distances ptsPass2 0 2)) (-1) > 31*Kconst) := by
    rw [seg_pass2_02]
    have harg : npArgmax [25*Kconst] = 0 := by simp [npArgmax]
    rw [harg]
    have hget : ([25*Kconst] : List ℝ).getD 0 (-1) = 25*Kconst := by simp
    rw [hget]
    push_neg
    nlinarith
  exact rdpRec_nosplit ptsPass2 (31*Kconst) h1 h2 h3

lemma rdp_indices_pass1 : rdp_indices ptsPass1 (31*Kconst) = [0, 2, 3] := by
  have hlen : ptsPass1.length = 4 := by rw [ptsPass1]; rfl
  rw [rdp_indices_eq_filter ptsPass1 (31*Kconst) (by omega)]
  have hks : keepSet ptsPass1 (31*Kconst) = {0, 3} ∪ {2} := by
    rw [keepSet, hlen]
    norm_num
    rw [rdpRec_pass1]
  simp only [hks, hlen]
  decide

lemma rdp_indices_pass2 : rdp_indices ptsPass2 (31*Kconst) = [0, 2] := by
  have hlen : ptsPass2.length = 3 := by rw [ptsPass2]; rfl
  rw [rdp_indices_eq_filter ptsPass2 (31*Kconst) (by omega)]
  have hks : keepSet ptsPass2 (31*Kconst) = {0, 2} ∪ ∅ := by
    rw [keepSet, hlen]
    norm_num
    rw [rdpRec_pass2]
    simp
  simp only [hks, hlen]
  decide

lemma simplify_arrays_pass1 :
    simplify_arrays [(30:ℝ), 0, 60, 90] [(0:ℝ), 0, 50, 0] (31*Kconst) =
      some ([(30:ℝ), 60, 90], [(0:ℝ), 50, 0]) := by
  rw [simplify_arrays, if_neg (by norm_num), proj_run1]
  dsimp only
  rw [rdp_indices_pass1]
  norm_num [List.getD]

lemma simplify_arrays_pass2 :
    simplify_arrays [(30:ℝ), 60, 90] [(0:ℝ), 50, 0] (31*Kconst) =
      some ([(30:ℝ), 90], [(0:ℝ), 0]) := by
  rw [simplify_arrays, if_neg (by norm_num), proj_run2]
  dsimp only
  rw [rdp_indices_pass2]
  norm_num [List.getD]

/-- C4 is refuted: simplifying the track with latitudes 30, 0, 60, 90 and
longitudes 0, 0, 50, 0 at the nonnegative tolerance of 31 projected
degrees drops the interior point with latitude 0 and keeps the point with
longitude 50; re-running simplify on that reduced track with the same
tolerance re-projects around the new mean latitude of 60 degrees (instead
of 45), which shrinks the longitude deviation below the tolerance, so the
second pass drops a further point and the result is not the simplified
track: simplify applied twice with equal epsilon is not a fixed point. -/
theorem C4_simplify_not_idempotent_counterexample :
    0 ≤ 31*Kconst ∧
      simplify ⟨10⟩ [(30:ℝ), 0, 60, 90] [(0:ℝ), 0, 50, 0] (some (31*Kconst)) =
        some ([(30:ℝ), 60, 90], [(0:ℝ), 50, 0]) ∧
      simplify ⟨10⟩ [(30:ℝ), 60, 90] [(0:ℝ), 50, 0] (some (31*Kconst)) =
        some ([(30:ℝ), 90], [(0:ℝ), 0]) ∧
      (([(30:ℝ), 90], [(0:ℝ), 0]) : List ℝ × List ℝ) ≠
        ([(30:ℝ), 60, 90], [(0:ℝ), 50, 0]) := by
  refine ⟨by linarith [Kconst_pos], ?_, ?_, by simp⟩
  · rw [simplify]
    dsimp only [Option.getD]
    exact simplify_arrays_pass1
  · rw [simplify]
    dsimp only [Option.getD]
    exact simplify_arrays_pass2

/-! Infrastructure for the fixed-projection idempotence theorem: the
sorted list of retained indices and its enumeration. -/

lemma keptList_sorted (pts : List Point) (ε : ℝ) : (keptList pts ε).Sorted (· < ·) :=
  List.Pairwise.filter _ (List.sorted_lt_range _)

lemma keptList_nodup (pts : List Point) (ε : ℝ) : (keptList pts ε).Nodup :=
  List.Nodup.filter _ (List.nodup_range _)

lemma mem_keptList (pts : List Point) (ε : ℝ) (h : 2 < pts.length) (k : ℕ) :
    k ∈ keptList pts ε ↔ k ∈ keepSet pts ε := by
  rw [keptList, List.mem_filter, List.mem_range]
  constructor
  · intro hk
    simpa using hk.2
  · intro hk
    exact ⟨keepSet_lt_length pts ε h k hk, by simpa using hk⟩

lemma rdp_indices_eq_keptList (pts : List Point) (ε : ℝ) (h : 2 < pts.length) :
    rdp_indices pts ε = keptList pts ε :=
  rdp_indices_eq_filter pts ε h

lemma keptIdx_strictMono (pts : List Point) (ε : ℝ) {p q : ℕ}
    (hq : q < (keptList pts ε).length) (hpq : p < q) :
    keptIdx pts ε p < keptIdx pts ε q := by
  have hp : p < (keptList pts ε).length := lt_trans hpq hq
  rw [keptIdx, keptIdx, List.getD_eq_getElem _ _ hp, List.getD_eq_getElem _ _ hq]
  have := List.Sorted.get_strictMono (keptList_sorted pts ε)
    (show (⟨p, hp⟩ : Fin (keptList pts ε).length) < ⟨q, hq⟩ from hpq)
  simpa [List.get_eq_getElem] using this

lemma keptIdx_lt_reflect (pts : List Point) (ε : ℝ) {p q : ℕ}
    (hp : p < (keptList pts ε).length) (hq : q < (keptList pts ε).length)
    (h : keptIdx pts ε p < keptIdx pts ε q) : p < q := by
  rcases lt_trichotomy p q with hpq | rfl | hpq
  · exact hpq
  · omega
  · have := keptIdx_strictMono pts ε hp hpq
    omega

lemma keptIdx_mem (pts : List Point) (ε : ℝ) (p : ℕ)
    (hp : p < (keptList pts ε).length) : keptIdx pts ε p ∈ keptList pts ε := by
  rw [keptIdx, List.getD_eq_getElem _ _ hp]
  exact List.getElem_mem hp

lemma keptIdx_lt_plen (pts : List Point) (ε : ℝ) (h : 2 < pts.length) (p : ℕ)
    (hp : p < (keptList pts ε).length) : keptIdx pts ε p < pts.length :=
  keepSet_lt_length pts ε h _ ((mem_keptList pts ε h _).1 (keptIdx_mem pts ε p hp))

lemma keptIdx_mem_keepSet (pts : List Point) (ε : ℝ) (h : 2 < pts.length) (p : ℕ)
    (hp : p < (keptList pts ε).length) : keptIdx pts ε p ∈ keepSet pts ε :=
  (mem_keptList pts ε h _).1 (keptIdx_mem pts ε p hp)

lemma exists_keptIdx (pts : List Point) (ε : ℝ) (h : 2 < pts.length) {k : ℕ}
    (hk : k ∈ keepSet pts ε) :
    ∃ p, p < (keptList pts ε).length ∧ keptIdx pts ε p = k := by
  have hmem : k ∈ keptList pts ε := (mem_keptList pts ε h k).2 hk
  obtain ⟨⟨p, hp⟩, hpe⟩ := List.mem_iff_get.1 hmem
  refine ⟨p, hp, ?_⟩
  rw [keptIdx, List.getD_eq_getElem _ _ hp]
  simpa [List.get_eq_getElem] using hpe

lemma keptIdx_zero (pts : List Point) (ε : ℝ) (h : 2 < pts.length) :
    keptIdx pts ε 0 = 0 := by
  obtain ⟨p, hp, hpe⟩ := exists_keptIdx pts ε h (zero_mem_keepSet pts ε)
  rcases Nat.eq_zero_or_pos p with rfl | hppos
  · exact hpe
  · have := keptIdx_strictMono pts ε hp hppos
    omega

lemma keptIdx_last (pts : List Point) (ε : ℝ) (h : 2 < pts.length) :
    keptIdx pts ε ((keptList pts ε).length - 1) = pts.length - 1 := by
  obtain ⟨p, hp, hpe⟩ := exists_keptIdx pts ε h (last_mem_keepSet pts ε)
  have hlast : (keptList pts ε).length - 1 < (keptList pts ε).length := by omega
  rcases lt_or_eq_of_le (show p ≤ (keptList pts ε).length - 1 by omega) with hlt | heq
  · have h1 := keptIdx_strictMono pts ε hlast hlt
    have h2 := keptIdx_lt_plen pts ε h _ hlast
    omega
  · rw [← heq]
    exact hpe

lemma keptList_length_ge_two (pts : List Point) (ε : ℝ) (h : 2 < pts.length) :
    2 ≤ (keptList pts ε).length := by
  have h0 : (0:ℕ) ∈ keptList pts ε :=
    (mem_keptList pts ε h 0).2 (zero_mem_keepSet pts ε)
  have h1 : pts.length - 1 ∈ keptList pts ε :=
    (mem_keptList pts ε h _).2 (last_mem_keepSet pts ε)
  cases hl : keptList pts ε with
  | nil =>
    rw [hl] at h0
    simp at h0
  | cons x tl =>
    cases tl with
    | nil =>
      rw [hl] at h0 h1
      simp at h0 h1
      omega
    | cons y t => simp

lemma keptPts_length (pts : List Point) (ε : ℝ) :
    (keptPts pts ε).length = (keptList pts ε).length := by
  simp [keptPts]

lemma nth_keptPts (pts : List Point) (ε : ℝ) (p : ℕ)
    (hp : p < (keptList pts ε).length) :
    nth (keptPts pts ε) p = nth pts (keptIdx pts ε p) := by
  rw [keptPts, nth, keptIdx,
    List.getD_eq_getElem _ _ (show p < ((keptList pts ε).map (nth pts)).length by
      simpa using hp),
    List.getD_eq_getElem _ _ hp, List.getElem_map]

lemma segment_distances_getD (pts : List Point) (i j r : ℕ) (hj : j < pts.length)
    (hr : r < j - (i + 1)) (d : ℝ) :
    (segment_distances pts i j).getD r d =
      point_segment_distance (nth pts (i + 1 + r)) (nth pts i) (nth pts j) := by
  have hlen : (segment_distances pts i j).length = j - (i + 1) :=
    segment_distances_length pts i j hj
  rw [List.getD_eq_getElem _ _ (by omega)]
  simp only [segment_distances, List.getElem_map, List.getElem_take, List.getElem_drop]
  simp only [nth]
  rw [List.getD_eq_getElem _ _ (show i + 1 + r < pts.length by omega)]

lemma maxdist_spec (pts : List Point) (i j : ℕ) (hj : j < pts.length)
    (h2 : segment_distances pts i j ≠ []) :
    (segment_distances pts i j).getD (npArgmax (segment_distances pts i j)) (-1) =
      point_segment_distance (nth pts (i + 1 + npArgmax (segment_distances pts i j)))
        (nth pts i) (nth pts j) := by
  have ha := npArgmax_lt_length _ h2
  have hlen := segment_distances_length pts i j hj
  exact segment_distances_getD pts i j _ hj (by omega) (-1)

lemma dist_le_maxdist (pts : List Point) (i j k : ℕ) (hj : j < pts.length)
    (h2 : segment_distances pts i j ≠ []) (hik : i < k) (hkj : k < j) :
    point_segment_distance (nth pts k) (nth pts i) (nth pts j) ≤
      (segment_distances pts i j).getD (npArgmax (segment_distances pts i j)) (-1) := by
  have hlen := segment_distances_length pts i j hj
  have hr : k - (i + 1) < j - (i + 1) := by omega
  have hget := segment_distances_getD pts i j (k - (i + 1)) hj hr 0
  rw [show i + 1 + (k - (i + 1)) = k by omega] at hget
  rw [getD_npArgmax _ _ h2, ← hget]
  have hmem : (segment_distances pts i j).getD (k - (i + 1)) 0 ∈
      segment_distances pts i j := by
    rw [List.getD_eq_getElem _ _ (by omega)]
    exact List.getElem_mem _
  exact le_npMax _ _ hmem

lemma dist_lt_maxdist_of_lt (pts : List Point) (i j k : ℕ) (hj : j < pts.length)
    (h2 : segment_distances pts i j ≠ []) (hik : i < k)
    (hkm : k < i + 1 + npArgmax (segment_distances pts i j)) :
    point_segment_distance (nth pts k) (nth pts i) (nth pts j) <
      (segment_distances pts i j).getD (npArgmax (segment_distances pts i j)) (-1) := by
  have hlen := segment_distances_length pts i j hj
  have ha := npArgmax_lt_length _ h2
  have hr : k - (i + 1) < j - (i + 1) := by omega
  have hget := segment_distances_getD pts i j (k - (i + 1)) hj hr 0
  rw [show i + 1 + (k - (i + 1)) = k by omega] at hget
  rw [getD_npArgmax _ _ h2, ← hget]
  exact getD_lt_npMax_of_lt_npArgmax 0 _ _ (by omega)

lemma rdpRec_ne_empty_elim (pts : List Point) (ε : ℝ) (i j : ℕ)
    (hne : rdpRec pts ε i j ≠ ∅) :
    ¬(j - i ≤ 1) ∧ segment_distances pts i j ≠ [] ∧
      (segment_distances pts i j).getD (npArgmax (segment_distances pts i j)) (-1) > ε := by
  by_cases h1 : j - i ≤ 1
  · exact absurd (rdpRec_small pts ε h1) hne
  · by_cases h2 : segment_distances pts i j = []
    · exact absurd (rdpRec_nods pts ε h1 h2) hne
    · by_cases h3 : (segment_distances pts i j).getD
          (npArgmax (segment_distances pts i j)) (-1) > ε
      · exact ⟨h1, h2, h3⟩
      · exact absurd (rdpRec_nosplit pts ε h1 h2 h3) hne

lemma map_nth_range (l : List Point) : (List.range l.length).map (nth l) = l := by
  apply List.ext_getElem
  · simp
  · intro i h1 h2
    simp only [List.getElem_map, List.getElem_range, nth]
    rw [List.getD_eq_getElem _ _ h2]

/-- Core of the fixed-projection idempotence proof: rerunning the range
recursion on the subsequence of retained points splits everywhere, because
every retained interior point was the strict first maximum of its original
range, so the rerun recursion marks the whole open position range. -/
lemma rerun_rdpRec_full (pts : List Point) (ε : ℝ) (hn : 2 < pts.length) :
    ∀ (N p q : ℕ), q - p ≤ N → q < (keptList pts ε).length → p < q →
      keepSet pts ε ∩ Finset.Ioo (keptIdx pts ε p) (keptIdx pts ε q) =
        rdpRec pts ε (keptIdx pts ε p) (keptIdx pts ε q) →
      rdpRec (keptPts pts ε) ε p q = Finset.Ioo p q := by
  intro N
  induction N with
  | zero =>
    intro p q hN hq hpq hH
    omega
  | succ N ih =>
    intro p q hN hq hpq hH
    by_cases hsmall : q - p ≤ 1
    · rw [rdpRec_small _ _ hsmall]
      ext k
      simp only [Finset.not_mem_empty, false_iff, Finset.mem_Ioo]
      omega
    · have hpl : p < (keptList pts ε).length := lt_trans hpq hq
      have hIJ : keptIdx pts ε p < keptIdx pts ε q := keptIdx_strictMono pts ε hq hpq
      have hJn : keptIdx pts ε q < pts.length := keptIdx_lt_plen pts ε hn q hq
      have hmidl : p + 1 < (keptList pts ε).length := by omega
      have hmid_mem : keptIdx pts ε (p + 1) ∈
          keepSet pts ε ∩ Finset.Ioo (keptIdx pts ε p) (keptIdx pts ε q) := by
        refine Finset.mem_inter.2 ⟨keptIdx_mem_keepSet pts ε hn _ hmidl, ?_⟩
        rw [Finset.mem_Ioo]
        exact ⟨keptIdx_strictMono pts ε hmidl (by omega),
          keptIdx_strictMono pts ε hq (by omega)⟩
      have hne : rdpRec pts ε (keptIdx pts ε p) (keptIdx pts ε q) ≠ ∅ := by
        intro hc
        rw [hH, hc] at hmid_mem
        exact Finset.not_mem_empty _ hmid_mem
      obtain ⟨h1, h2, h3⟩ := rdpRec_ne_empty_elim pts ε _ _ hne
      have hsplit := rdpRec_split pts ε h1 h2 h3
      obtain ⟨hIM, hMJ⟩ := split_idx_bounds pts h1 h2
      have hMK : keptIdx pts ε p + 1 +
          npArgmax (segment_distances pts (keptIdx pts ε p) (keptIdx pts ε q)) ∈
          keepSet pts ε := by
        have hm : keptIdx pts ε p + 1 +
            npArgmax (segment_distances pts (keptIdx pts ε p) (keptIdx pts ε q)) ∈
            rdpRec pts ε (keptIdx pts ε p) (keptIdx pts ε q) := by
          rw [hsplit]
          simp
        rw [← hH] at hm
        exact (Finset.mem_inter.1 hm).1
      obtain ⟨w, hwl, hwe⟩ := exists_keptIdx pts ε hn hMK
      have hpw : p < w := keptIdx_lt_reflect pts ε hpl hwl (by rw [hwe]; exact hIM)
      have hwq : w < q := keptIdx_lt_reflect pts ε hwl hq (by rw [hwe]; exact hMJ)
      have hplen' : q < (keptPts pts ε).length := by
        rw [keptPts_length]
        exact hq
      have hlen' : (segment_distances (keptPts pts ε) p q).length = q - (p + 1) :=
        segment_distances_length _ p q hplen'
      have hds' : segment_distances (keptPts pts ε) p q ≠ [] := by
        intro hc
        rw [hc] at hlen'
        simp at hlen'
        omega
      have hentry : ∀ s, s < q - (p + 1) →
          (segment_distances (keptPts pts ε) p q).getD s 0 =
            point_segment_distance (nth pts (keptIdx pts ε (p + 1 + s)))
              (nth pts (keptIdx pts ε p)) (nth pts (keptIdx pts ε q)) := by
        intro s hs
        rw [segment_distances_getD _ p q s hplen' hs 0,
          nth_keptPts pts ε _ (by omega), nth_keptPts pts ε p hpl,
          nth_keptPts pts ε q hq]
      have hMval := maxdist_spec pts (keptIdx pts ε p) (keptIdx pts ε q) hJn h2
      have hρ : npArgmax (segment_distances (keptPts pts ε) p q) = w - (p + 1) := by
        apply npArgmax_eq 0
        · rw [hlen']
          omega
        · intro s hs
          rw [hlen'] at hs
          rw [hentry s hs, hentry (w - (p + 1)) (by omega),
            show p + 1 + (w - (p + 1)) = w by omega, hwe, ← hMval]
          simp only [← hwe] at hIM hMJ
          have hk1 : keptIdx pts ε p < keptIdx pts ε (p + 1 + s) :=
            keptIdx_strictMono pts ε (by omega) (by omega)
          have hk2 : keptIdx pts ε (p + 1 + s) < keptIdx pts ε q :=
            keptIdx_strictMono pts ε hq (by omega)
          exact dist_le_maxdist pts _ _ _ hJn h2 hk1 hk2
        · intro s hs
          have hsq : s < q - (p + 1) := by omega
          rw [hentry s hsq, hentry (w - (p + 1)) (by omega),
            show p + 1 + (w - (p + 1)) = w by omega, hwe, ← hMval]
          have hk1 : keptIdx pts ε p < keptIdx pts ε (p + 1 + s) :=
            keptIdx_strictMono pts ε (by omega) (by omega)
          have hklt : keptIdx pts ε (p + 1 + s) < keptIdx pts ε w :=
            keptIdx_strictMono pts ε hwl (by omega)
          rw [hwe] at hklt
          exact dist_lt_maxdist_of_lt pts _ _ _ hJn h2 hk1 hklt
      have hval : (segment_distances (keptPts pts ε) p q).getD
          (npArgmax (segment_distances (keptPts pts ε) p q)) (-1) > ε := by
        rw [hρ,
          List.getD_eq_getElem _ (-1 : ℝ) (show w - (p + 1) <
            (segment_distances (keptPts pts ε) p q).length by rw [hlen']; omega),
          ← List.getD_eq_getElem _ (0 : ℝ) (show w - (p + 1) <
            (segment_distances (keptPts pts ε) p q).length by rw [hlen']; omega),
          hentry (w - (p + 1)) (by omega),
          show p + 1 + (w - (p + 1)) = w by omega, hwe, ← hMval]
        exact h3
      have hb1 : ¬(q - p ≤ 1) := hsmall
      rw [rdpRec_split (keptPts pts ε) ε hb1 hds' hval, hρ,
        show p + 1 + (w - (p + 1)) = w by omega]
      have hHsub : keepSet pts ε ∩ Finset.Ioo (keptIdx pts ε p) (keptIdx pts ε w) =
          rdpRec pts ε (keptIdx pts ε p) (keptIdx pts ε w) := by
        rw [hwe]
        have hsubL := rdpRec_subset_Ioo pts ε (keptIdx pts ε p)
          (keptIdx pts ε p + 1 +
            npArgmax (segment_distances pts (keptIdx pts ε p) (keptIdx pts ε q)))
        have hsubR := rdpRec_subset_Ioo pts ε
          (keptIdx pts ε p + 1 +
            npArgmax (segment_distances pts (keptIdx pts ε p) (keptIdx pts ε q)))
          (keptIdx pts ε q)
        ext k
        constructor
        · intro hk
          obtain ⟨hkK, hkI⟩ := Finset.mem_inter.1 hk
          rw [Finset.mem_Ioo] at hkI
          have hk2 : k ∈ keepSet pts ε ∩
              Finset.Ioo (keptIdx pts ε p) (keptIdx pts ε q) := by
            refine Finset.mem_inter.2 ⟨hkK, ?_⟩
            rw [Finset.mem_Ioo]
            omega
          rw [hH, hsplit] at hk2
          simp only [Finset.mem_union, Finset.mem_singleton] at hk2
          rcases hk2 with (hk2 | hk2) | hk2
          · omega
          · exact hk2
          · have := hsubR hk2
            rw [Finset.mem_Ioo] at this
            omega
        · intro hk
          have hkI := hsubL hk
          rw [Finset.mem_Ioo] at hkI
          have hkJ : k ∈ rdpRec pts ε (keptIdx pts ε p) (keptIdx pts ε q) := by
            rw [hsplit]
            simp only [Finset.mem_union]
            left
            right
            exact hk
          rw [← hH] at hkJ
          refine Finset.mem_inter.2 ⟨(Finset.mem_inter.1 hkJ).1, ?_⟩
          rw [Finset.mem_Ioo]
          omega
      have hHsub2 : keepSet pts ε ∩ Finset.Ioo (keptIdx pts ε w) (keptIdx pts ε q) =
          rdpRec pts ε (keptIdx pts ε w) (keptIdx pts ε q) := by
        rw [hwe]
        have hsubL := rdpRec_subset_Ioo pts ε (keptIdx pts ε p)
          (keptIdx pts ε p + 1 +
            npArgmax (segment_distances pts (keptIdx pts ε p) (keptIdx pts ε q)))
        have hsubR := rdpRec_subset_Ioo pts ε
          (keptIdx pts ε p + 1 +
            npArgmax (segment_distances pts (keptIdx pts ε p) (keptIdx pts ε q)))
          (keptIdx pts ε q)
        ext k
        constructor
        · intro hk
          obtain ⟨hkK, hkI⟩ := Finset.mem_inter.1 hk
          rw [Finset.mem_Ioo] at hkI
          have hk2 : k ∈ keepSet pts ε ∩
              Finset.Ioo (keptIdx pts ε p) (keptIdx pts ε q) := by
            refine Finset.mem_inter.2 ⟨hkK, ?_⟩
            rw [Finset.mem_Ioo]
            omega
          rw [hH, hsplit] at hk2
          simp only [Finset.mem_union, Finset.mem_singleton] at hk2
          rcases hk2 with (hk2 | hk2) | hk2
          · omega
          · have := hsubL hk2
            rw [Finset.mem_Ioo] at this
            omega
          · exact hk2
        · intro hk
          have hkI := hsubR hk
          rw [Finset.mem_Ioo] at hkI
          have hkJ : k ∈ rdpRec pts ε (keptIdx pts ε p) (keptIdx pts ε q) := by
            rw [hsplit]
            simp only [Finset.mem_union]
            right
            exact hk
          rw [← hH] at hkJ
          refine Finset.mem_inter.2 ⟨(Finset.mem_inter.1 hkJ).1, ?_⟩
          rw [Finset.mem_Ioo]
          omega
      rw [ih p w (by omega) hwl hpw hHsub, ih w q (by omega) hq hwq hHsub2]
      ext k
      simp only [Finset.mem_union, Finset.mem_singleton, Finset.mem_Ioo]
      omega

/-- C4 as amended: at a fixed planar projection the reduction is
idempotent for every epsilon at least 0: re-running rdp_indices on the
subsequence of points selected by a first run with the same epsilon
retains every point, returning the full index range.  (The original claim
about simplify, which re-projects the reduced track around its new mean
latitude, is refuted by the counterexample theorem.) -/
theorem C4_rdp_idempotent_fixed_projection (pts : List Point) (ε : ℝ) (hε : 0 ≤ ε) :
    rdp_indices ((rdp_indices pts ε).map (nth pts)) ε =
      List.range (rdp_indices pts ε).length := by
  by_cases hn : pts.length ≤ 2
  · rw [rdp_indices_small pts ε hn, map_nth_range pts, rdp_indices_small pts ε hn]
    simp
  · push_neg at hn
    rw [rdp_indices_eq_keptList pts ε hn]
    rw [show (keptList pts ε).map (nth pts) = keptPts pts ε from rfl]
    by_cases hsm : (keptPts pts ε).length ≤ 2
    · rw [rdp_indices_small _ ε hsm, keptPts_length]
    · push_neg at hsm
      rw [rdp_indices_eq_filter _ ε hsm]
      have hroot : keepSet pts ε ∩ Finset.Ioo (keptIdx pts ε 0)
          (keptIdx pts ε ((keptList pts ε).length - 1)) =
          rdpRec pts ε (keptIdx pts ε 0)
            (keptIdx pts ε ((keptList pts ε).length - 1)) := by
        rw [keptIdx_zero pts ε hn, keptIdx_last pts ε hn]
        have hsub := rdpRec_subset_Ioo pts ε 0 (pts.length - 1)
        ext k
        constructor
        · intro hk
          obtain ⟨hkK, hkI⟩ := Finset.mem_inter.1 hk
          rw [Finset.mem_Ioo] at hkI
          rw [keepSet] at hkK
          simp only [Finset.mem_union, Finset.mem_insert, Finset.mem_singleton] at hkK
          rcases hkK with (h0 | h0) | h0
          · omega
          · omega
          · exact h0
        · intro hk
          refine Finset.mem_inter.2 ⟨?_, hsub hk⟩
          rw [keepSet]
          exact Finset.mem_union_right _ hk
      have hn' : 2 < (keptList pts ε).length := by
        rw [keptPts_length] at hsm
        exact hsm
      have hfull := rerun_rdpRec_full pts ε hn ((keptList pts ε).length - 1) 0
        ((keptList pts ε).length - 1) le_rfl (by omega) (by omega) hroot
      have hks : keepSet (keptPts pts ε) ε =
          {0, (keptList pts ε).length - 1} ∪
            Finset.Ioo 0 ((keptList pts ε).length - 1) := by
        rw [keepSet, keptPts_length, hfull]
      rw [keptPts_length]
      simp only [hks]
      rw [List.filter_eq_self]
      intro k hk
      rw [List.mem_range] at hk
      simp only [decide_eq_true_eq, Finset.mem_union, Finset.mem_insert,
        Finset.mem_singleton, Finset.mem_Ioo]
      omega

/-- Witness for the amended C4 at a concrete three-point corner track with
epsilon 0. -/
theorem C4_rdp_idempotent_fixed_projection_witness :
    (0:ℝ) ≤ 0 ∧
      rdp_indices
        ((rdp_indices ([((0:ℝ), (0:ℝ)), ((1:ℝ), (1:ℝ)), ((2:ℝ), (0:ℝ))] : List Point) 0).map
          (nth ([((0:ℝ), (0:ℝ)), ((1:ℝ), (1:ℝ)), ((2:ℝ), (0:ℝ))] : List Point))) 0 =
      List.range
        (rdp_indices ([((0:ℝ), (0:ℝ)), ((1:ℝ), (1:ℝ)), ((2:ℝ), (0:ℝ))] : List Point) 0).length :=
  ⟨le_refl 0,
    C4_rdp_idempotent_fixed_projection
      ([((0:ℝ), (0:ℝ)), ((1:ℝ), (1:ℝ)), ((2:ℝ), (0:ℝ))] : List Point) 0 (le_refl 0)⟩

/-- Witness for C6 at a concrete point, segment and parameter value 0. -/
theorem C6_point_segment_distance_clamped_witness :
    (0:ℝ) ≤ 0 ∧ (0:ℝ) ≤ 1 ∧
      (point_segment_distance (((3:ℝ), (4:ℝ)) : Point) (((0:ℝ), (0:ℝ)) : Point)
          (((1:ℝ), (0:ℝ)) : Point) ≤
        npNorm ((3:ℝ) - ((0:ℝ) + 0 * ((1:ℝ) - (0:ℝ))),
          (4:ℝ) - ((0:ℝ) + 0 * ((0:ℝ) - (0:ℝ)))) ∧
      ((((0:ℝ), (0:ℝ)) : Point) = (((1:ℝ), (0:ℝ)) : Point) →
        point_segment_distance (((3:ℝ), (4:ℝ)) : Point) (((0:ℝ), (0:ℝ)) : Point)
            (((1:ℝ), (0:ℝ)) : Point) =
          npNorm ((3:ℝ) - (0:ℝ), (4:ℝ) - (0:ℝ)))) :=
  ⟨le_refl 0, zero_le_one,
    C6_point_segment_distance_clamped (((3:ℝ), (4:ℝ)) : Point)
      (((0:ℝ), (0:ℝ)) : Point) (((1:ℝ), (0:ℝ)) : Point) 0 (le_refl 0) zero_le_one⟩

end

end GPS
